import Mathlib

/-!
Shallow embedding of the PyPI JupyterLab extensions catalog builder
(src/pypi.py): the XMLRPC throttling wrapper, the package metadata
projection, URL precedence, name normalization, grouping by raw name,
and the final catalog sorted by monthly downloads.
-/

namespace PyPIExt

/-- An XMLRPC fault: faultCode and faultString, as in xmlrpc.client.Fault. -/
structure Fault where
  faultCode : Int
  faultString : String
deriving DecidableEq

/-- Result of one invocation of the wrapped callable: a value or a fault. -/
inductive CallResult (α : Type) where
  | ok : α → CallResult α
  | fault : Fault → CallResult α
deriving DecidableEq

/-- Outcome of the throttling wrapper.  The unboundLocal constructor models
the UnboundLocalError that Python raises at the final return statement when
the except clause caught a fault but assigned nothing to data. -/
inductive PyOutcome (α : Type) where
  | ok : α → PyOutcome α
  | fault : Fault → PyOutcome α
  | unboundLocal : PyOutcome α
deriving DecidableEq

/-- Whether the character list starts with the given literal pattern. -/
def startsWithChars : List Char → List Char → Bool
  | [], _ => true
  | _ :: _, [] => false
  | c :: cs, d :: ds => c == d && startsWithChars cs ds

/-- Drop a literal pattern from the front of a character list, failing when
the list does not start with the pattern. -/
def dropLit : List Char → List Char → Option (List Char)
  | [], rest => some rest
  | _ :: _, [] => none
  | c :: cs, d :: ds => if c = d then dropLit cs ds else none

/-- Split off the maximal leading run of decimal digits. -/
def takeDigits : List Char → List Char × List Char
  | [] => ([], [])
  | c :: cs =>
    if c.isDigit then
      let p := takeDigits cs
      (c :: p.1, p.2)
    else ([], c :: cs)

/-- Decimal value of a digit list. -/
def digitsToNat (l : List Char) : Nat :=
  l.foldl (fun acc c => acc * 10 + (c.toNat - '0'.toNat)) 0

/-- Try to match, at the head of the list, the regular expression used on
line 87 of pypi.py: the literal text, one or more digits, the literal
closing text, and one further character that is not a newline (the dot of
the pattern).  Returns the numeric value of the digit group. -/
def matchResetAt (cs : List Char) : Option Nat :=
  match dropLit "Limit may reset in ".data cs with
  | none => none
  | some r1 =>
    match takeDigits r1 with
    | ([], _) => none
    | (ds, r2) =>
      match dropLit " seconds".data r2 with
      | none => none
      | some r3 =>
        match r3 with
        | [] => none
        | c :: _ => if c = '\n' then none else some (digitsToNat ds)

/-- Leftmost match of the reset-hint pattern, as re.search does. -/
def searchReset : List Char → Option Nat
  | [] => none
  | c :: cs =>
    match matchResetAt (c :: cs) with
    | some n => some n
    | none => searchReset cs

/-- The rate-limit test on line 85 of pypi.py: faultCode -32500 and a
faultString starting with the HTTPTooManyRequests marker. -/
def isRateLimit (f : Fault) : Bool :=
  f.faultCode == -32500 && startsWithChars "HTTPTooManyRequests:".data f.faultString.data

/-- The sleep duration computed on lines 86-93 of pypi.py: the parsed reset
hint (default 1.01) times the configured throttling, plus 0.01. -/
def throttleSleep (throttling : ℚ) (f : Fault) : ℚ :=
  (match searchReset f.faultString.data with
   | some n => (n : ℚ)
   | none => 101 / 100) * throttling + 1 / 100

/-- Lift the result of a bare call to a wrapper outcome (the call sits
outside any try block, so its fault propagates). -/
def liftCall {α : Type} : CallResult α → PyOutcome α
  | CallResult.ok a => PyOutcome.ok a
  | CallResult.fault f => PyOutcome.fault f

/-- The body of PyPILabExtensions.__throttleRequest with recursive=False.
The callable is modelled as a map from the invocation index to the result
of that invocation; index k is the next invocation to perform.  Returns
the outcome together with the list of sleep durations performed. -/
def throttleRequestInner {α : Type} (throttling : ℚ) (fn : Nat → CallResult α)
    (k : Nat) : PyOutcome α × List ℚ :=
  match fn k with
  | CallResult.ok a => (PyOutcome.ok a, [])
  | CallResult.fault f =>
    if isRateLimit f then
      (liftCall (fn (k + 1)), [throttleSleep throttling f])
    else
      (PyOutcome.unboundLocal, [])

/-- PyPILabExtensions.__throttleRequest (lines 70-99 of pypi.py).  On a
rate-limit fault it sleeps and retries: recursively (once) when
recursive is true, by a plain call otherwise.  On any other fault the
except clause falls through without re-raising and the final return
statement raises UnboundLocalError. -/
def throttleRequest {α : Type} (throttling : ℚ) (recursive : Bool)
    (fn : Nat → CallResult α) (k : Nat) : PyOutcome α × List ℚ :=
  match fn k with
  | CallResult.ok a => (PyOutcome.ok a, [])
  | CallResult.fault f =>
    if isRateLimit f then
      if recursive then
        let inner := throttleRequestInner throttling fn (k + 1)
        (inner.1, throttleSleep throttling f :: inner.2)
      else
        (liftCall (fn (k + 1)), [throttleSleep throttling f])
    else
      (PyOutcome.unboundLocal, [])

/-- Python truthiness of an optional string: None and "" are falsy. -/
def truthy : Option String → Bool
  | none => false
  | some s => !(s == "")

/-- Python or on two optional string values: the first operand when it is
truthy, otherwise the second operand. -/
def pyOr (a b : Option String) : Option String :=
  match a with
  | none => b
  | some s => if s = "" then b else some s

/-- Lookup in a Python dict modelled as an association list. -/
def dictLookup {α : Type} (k : String) : List (String × α) → Option α
  | [] => none
  | p :: rest => if p.1 = k then some p.2 else dictLookup k rest

/-- Python dict assignment: overwrite in place when the key exists, append
otherwise, preserving insertion order as Python dicts do. -/
def dictInsert {α : Type} (k : String) (v : α) :
    List (String × α) → List (String × α)
  | [] => [(k, v)]
  | p :: rest => if p.1 = k then (k, v) :: rest else p :: dictInsert k v rest

/-- Replace every occurrence of a one-character pattern by a replacement
character list, as str.replace does for these patterns. -/
def replaceChar (l : List Char) (pat : Char) (rep : List Char) : List Char :=
  match l with
  | [] => []
  | c :: cs =>
    if c = pat then rep ++ replaceChar cs pat rep
    else c :: replaceChar cs pat rep

/-- PyPILabExtensions._normalize_name (line 186 of pypi.py): remove every
at sign, then replace every slash and every underscore by a dash. -/
def normalizeName (name : String) : String :=
  ⟨replaceChar (replaceChar (replaceChar name.data '@' []) '/' ['-']) '_' ['-']⟩

/-- The combined character replacement: slash and underscore become a
dash, every other character is kept. -/
def dashChar (c : Char) : Char :=
  if c = '/' then '-' else if c = '_' then '-' else c

/-- The nine metadata keys kept by the fetch (lines 28-41 of pypi.py). -/
structure Metadata where
  author : Option String
  bugtrack_url : Option String
  docs_url : Option String
  home_page : Option String
  license : Option String
  package_url : Option String
  project_url : Option String
  project_urls : Option (List (String × String))
  summary : Option String
deriving DecidableEq

/-- Line 126 of pypi.py: the project_urls map, or the empty dict when the
entry is missing (a null map and an empty map are both falsy). -/
def pkgUrls (data : Metadata) : List (String × String) :=
  match data.project_urls with
  | none => []
  | some d => d

/-- Line 128 of pypi.py. -/
def sourceUrl (data : Metadata) : Option String :=
  dictLookup "Source Code" (pkgUrls data)

/-- Line 129 of pypi.py. -/
def homepageUrl (data : Metadata) : Option String :=
  pyOr data.home_page (dictLookup "Homepage" (pkgUrls data))

/-- Line 130 of pypi.py. -/
def documentationUrl (data : Metadata) : Option String :=
  pyOr data.docs_url (dictLookup "Documentation" (pkgUrls data))

/-- Line 131 of pypi.py. -/
def bugTrackerUrl (data : Metadata) : Option String :=
  pyOr data.bugtrack_url (dictLookup "Bug Tracker" (pkgUrls data))

/-- Lines 133-140 of pypi.py: the fallback chain for the displayed
homepage field. -/
def bestGuessHomeUrl (data : Metadata) : Option String :=
  pyOr (homepageUrl data)
    (pyOr data.project_url
      (pyOr data.package_url
        (pyOr (documentationUrl data)
          (pyOr (sourceUrl data) (bugTrackerUrl data)))))

/-- A JSON value, as far as the statistics endpoint model needs one. -/
inductive SVal where
  | sint : Int → SVal
  | sobj : List (String × SVal) → SVal
  | sother : SVal

/-- Python dict get with a default, applied to a parsed JSON value; the
none result models the AttributeError raised when the receiver is not a
dict. -/
def svalGet (j : SVal) (k : String) (dflt : SVal) : Option SVal :=
  match j with
  | SVal.sobj l => some ((dictLookup k l).getD dflt)
  | _ => none

/-- PyPILabExtensions._get_monthly_download (lines 167-174 of pypi.py):
any exception from the fetch or the parse is caught and yields 0, and a
missing data or last_month key defaults to 0.  A last_month payload that
falls outside the declared int return type is also modelled as 0. -/
def getMonthlyDownload (fetch : Except Unit SVal) : Int :=
  match fetch with
  | Except.error _ => 0
  | Except.ok j =>
    match svalGet j "data" (SVal.sobj []) with
    | none => 0
    | some d =>
      match svalGet d "last_month" (SVal.sint 0) with
      | none => 0
      | some (SVal.sint i) => i
      | some _ => 0

/-- A catalog entry (lines 142-155 of pypi.py). -/
structure Record where
  name : String
  description : Option String
  homepage_url : Option String
  author : Option String
  license : Option String
  latest_version : String
  pkg_type : String
  bug_tracker_url : Option String
  documentation_url : Option String
  package_manager_url : Option String
  repository_url : Option String
  monthly_download : Int
deriving DecidableEq

/-- Assembly of one catalog entry; semver stands for the external
ExtensionManager.get_semver_version collaborator, and statsFetch for the
outcome of the statistics request for this package name. -/
def buildRecord (semver : String → String) (name version : String)
    (data : Metadata) (statsFetch : Except Unit SVal) : Record where
  name := normalizeName name
  description := data.summary
  homepage_url := bestGuessHomeUrl data
  author := data.author
  license := data.license
  latest_version := semver version
  pkg_type := "prebuilt"
  bug_tracker_url := bugTrackerUrl data
  documentation_url := documentationUrl data
  package_manager_url := data.package_url
  repository_url := sourceUrl data
  monthly_download := getMonthlyDownload statsFetch

/-- Helper for lastOfRuns: cur is the element of the current run seen
last so far. -/
def lastOfRunsAux (cur : String × String) :
    List (String × String) → List (String × String)
  | [] => [cur]
  | q :: rest =>
    if q.1 = cur.1 then lastOfRunsAux q rest
    else cur :: lastOfRunsAux q rest

/-- The last element of each maximal run of consecutive pairs sharing a
name: this is what lines 119-121 of pypi.py compute with
itertools.groupby followed by list(group)[-1]. -/
def lastOfRuns : List (String × String) → List (String × String)
  | [] => []
  | p :: rest => lastOfRunsAux p rest

/-- The enrichment loop of lines 117-155 of pypi.py over the groups, with
the metadata fetch modelled as a fallible oracle: the first metadata
failure aborts the whole build. -/
def buildDict {ε : Type} (semver : String → String)
    (meta : String → String → Except ε Metadata)
    (stats : String → Except Unit SVal) :
    List (String × String) → List (String × Record) →
      Except ε (List (String × Record))
  | [], d => Except.ok d
  | (n, v) :: rest, d =>
    match meta n v with
    | Except.error e => Except.error e
    | Except.ok data =>
      buildDict semver meta stats rest
        (dictInsert (normalizeName n) (buildRecord semver n v data (stats n)) d)

/-- The same loop with an infallible metadata oracle. -/
def buildDictT (semver : String → String)
    (metaF : String → String → Metadata)
    (stats : String → Except Unit SVal) :
    List (String × String) → List (String × Record) → List (String × Record)
  | [], d => d
  | (n, v) :: rest, d =>
    buildDictT semver metaF stats rest
      (dictInsert (normalizeName n) (buildRecord semver n v (metaF n v) (stats n)) d)

/-- Stable insertion of one element before the first element with a key
not smaller than its own, as in a stable ascending key sort. -/
def pyInsert {α : Type} (key : α → Int) (x : α) : List α → List α
  | [] => [x]
  | y :: ys => if key x ≤ key y then x :: y :: ys else y :: pyInsert key x ys

/-- Stable ascending sort by an integer key, as Python sorted with a key
function (line 157 of pypi.py). -/
def pySorted {α : Type} (key : α → Int) : List α → List α
  | [] => []
  | x :: xs => pyInsert key x (pySorted key xs)

/-- PyPILabExtensions.list_packages (lines 101-157 of pypi.py), given the
successfully fetched listing result: group candidates by consecutive raw
name keeping the last version, enrich each group into a record keyed by
normalized name in a dict, and return the dict values sorted ascending by
monthly downloads.  A metadata failure propagates. -/
def listPackages {ε : Type} (semver : String → String)
    (meta : String → String → Except ε Metadata)
    (stats : String → Except Unit SVal)
    (ms : List (String × String)) : Except ε (List Record) :=
  match buildDict semver meta stats (lastOfRuns ms) [] with
  | Except.error e => Except.error e
  | Except.ok d => Except.ok (pySorted (fun r => r.monthly_download) (d.map Prod.snd))

/-- The last element of a list satisfying a predicate. -/
def findLast {α : Type} (p : α → Bool) : List α → Option α
  | [] => none
  | x :: xs =>
    match findLast p xs with
    | some y => some y
    | none => if p x then some x else none

/-- First truthy element of a candidate list, none when there is none. -/
def firstTruthy : List (Option String) → Option String
  | [] => none
  | v :: rest => if truthy v then v else firstTruthy rest

/-- A Python or chain over a candidate list: the last operand is returned
as is when every operand is falsy. -/
def ors : List (Option String) → Option String
  | [] => none
  | [a] => a
  | a :: b :: rest => pyOr a (ors (b :: rest))

/-- The six fallback candidates of lines 133-140 of pypi.py, in order. -/
def c4Candidates (m : Metadata) : List (Option String) :=
  [homepageUrl m, m.project_url, m.package_url, documentationUrl m,
   sourceUrl m, bugTrackerUrl m]

/-- A concrete rate-limit fault message carrying a 5 second reset hint. -/
def msg5 : String := "HTTPTooManyRequests: Limit may reset in 5 seconds."

/-- A concrete rate-limit fault with the 5 second hint. -/
def faultRL5 : Fault := ⟨-32500, msg5⟩

/-- A callable that hits the rate limit on its first two invocations and
succeeds on the third. -/
def fnC2 : Nat → CallResult Nat := fun k =>
  if k = 0 then CallResult.fault faultRL5
  else if k = 1 then CallResult.fault faultRL5
  else CallResult.ok 42

/-- A fault that is not the rate-limit fault. -/
def faultOther : Fault := ⟨-32600, "boom"⟩

/-- A callable that always raises the non-rate-limit fault. -/
def fnC3 : Nat → CallResult Nat := fun _ => CallResult.fault faultOther

/-- A failed statistics fetch. -/
def statsErr : Except Unit SVal := Except.error ()

/-- Metadata with every field empty. -/
def emptyMeta : Metadata :=
  ⟨none, none, none, none, none, none, none, none, none⟩

/-- The metadata of the URL precedence scenario: home_page is HP and
project_urls carries Homepage H and Source Code S. -/
def mC1 : Metadata :=
  { author := none, bugtrack_url := none, docs_url := none,
    home_page := some "HP", license := none, package_url := none,
    project_url := none,
    project_urls := some [("Homepage", "H"), ("Source Code", "S")],
    summary := none }

/-- Metadata whose only URL is the bug tracker url. -/
def mC4 : Metadata :=
  { author := none, bugtrack_url := some "B", docs_url := none,
    home_page := none, license := none, package_url := none,
    project_url := none, project_urls := none, summary := none }

/-- A concrete two-candidate listing result. -/
def msW : List (String × String) := [("b", "1"), ("a", "2")]

/-- A concrete infallible metadata oracle. -/
def metaW : String → String → Metadata := fun _ _ => emptyMeta

/-- A concrete statistics oracle: package a has 3 downloads, every other
fetch fails. -/
def statsW : String → Except Unit SVal := fun n =>
  if n = "a" then
    Except.ok (SVal.sobj [("data", SVal.sobj [("last_month", SVal.sint 3)])])
  else Except.error ()

/-- The catalog built from the concrete fixtures. -/
def catW : List Record :=
  pySorted (fun r => r.monthly_download)
    ((buildDictT id metaW statsW (lastOfRuns msW) []).map Prod.snd)

theorem searchReset_msg5 : searchReset msg5.data = some 5 := by decide

theorem isRateLimit_faultRL5 : isRateLimit faultRL5 = true := by decide

theorem throttleSleep_faultRL5 : throttleSleep 2 faultRL5 = 1001 / 100 := by
  have h : faultRL5.faultString = msg5 := rfl
  rw [throttleSleep, h, searchReset_msg5]
  norm_num

/-- Unfolding lemma: two consecutive rate-limit faults lead to two sleeps
and a third, unguarded invocation whose result is returned as is. -/
theorem throttleRequest_rl_rl {α : Type} (t : ℚ) (fn : Nat → CallResult α)
    (k : Nat) (f g : Fault)
    (h0 : fn k = CallResult.fault f) (h1 : fn (k + 1) = CallResult.fault g)
    (hf : isRateLimit f = true) (hg : isRateLimit g = true) :
    throttleRequest t true fn k =
      (liftCall (fn (k + 2)), [throttleSleep t f, throttleSleep t g]) := by
  have hinner : throttleRequestInner t fn (k + 1) =
      (liftCall (fn (k + 1 + 1)), [throttleSleep t g]) := by
    rw [throttleRequestInner, h1]
    simp [hg]
  rw [throttleRequest, h0]
  simp only [hf, if_true, hinner]

/-- Unfolding lemma: a fault that is not the rate-limit fault is swallowed
by the except clause and the wrapper ends in UnboundLocalError, with no
sleep and no retry. -/
theorem throttleRequest_other {α : Type} (t : ℚ) (recursive : Bool)
    (fn : Nat → CallResult α) (k : Nat) (f : Fault)
    (h0 : fn k = CallResult.fault f) (hf : isRateLimit f = false) :
    throttleRequest t recursive fn k = (PyOutcome.unboundLocal, []) := by
  rw [throttleRequest, h0]
  simp [hf]

/-- Claim C2 (counterexample): with throttle 2.0 and rate-limit faults
carrying a 5 second hint on the first two invocations, the wrapper does
not propagate the second fault: it sleeps a second time and performs a
third invocation, here returning its value 42. -/
theorem throttle_second_ratelimit_cex :
    throttleRequest 2 true fnC2 0 = (PyOutcome.ok 42, [1001 / 100, 1001 / 100]) ∧
      (throttleRequest 2 true fnC2 0).1 ≠ PyOutcome.fault faultRL5 := by
  have he : throttleRequest 2 true fnC2 0 =
      (PyOutcome.ok 42, [1001 / 100, 1001 / 100]) := by
    have h := throttleRequest_rl_rl 2 fnC2 0 faultRL5 faultRL5 rfl rfl
      isRateLimit_faultRL5 isRateLimit_faultRL5
    rw [h, throttleSleep_faultRL5]
    rfl
  refine ⟨he, ?_⟩
  rw [he]
  simp

/-- Claim C2 (amended): given a rate-limit fault whose message contains the
text about a reset in 5 seconds and throttle 2.0, the wrapper sleeps 10.01
units and retries once; if that retry fails with a rate-limit fault again
the wrapper sleeps again and performs one final unguarded invocation whose
result propagates, bounding the wrapper to exactly two extra attempts. -/
theorem throttle_second_ratelimit_retries_again {α : Type}
    (fn : Nat → CallResult α) (f g : Fault)
    (h0 : fn 0 = CallResult.fault f) (h1 : fn 1 = CallResult.fault g)
    (hf : isRateLimit f = true) (hg : isRateLimit g = true)
    (hf5 : searchReset f.faultString.data = some 5)
    (hg5 : searchReset g.faultString.data = some 5) :
    throttleRequest 2 true fn 0 = (liftCall (fn 2), [1001 / 100, 1001 / 100]) := by
  have hsf : throttleSleep 2 f = 1001 / 100 := by rw [throttleSleep, hf5]; norm_num
  have hsg : throttleSleep 2 g = 1001 / 100 := by rw [throttleSleep, hg5]; norm_num
  have h := throttleRequest_rl_rl 2 fn 0 f g h0 h1 hf hg
  rw [h, hsf, hsg]

/-- Witness for claim C2 at the concrete callable fnC2. -/
theorem throttle_second_ratelimit_retries_again_witness :
    throttleRequest 2 true fnC2 0 =
      (liftCall (fnC2 2), [1001 / 100, 1001 / 100]) :=
  throttle_second_ratelimit_retries_again fnC2 faultRL5 faultRL5 rfl rfl
    (by decide) (by decide) (by decide) (by decide)

/-- Claim C3 (code bug evaluation): on a non-rate-limit fault the wrapper
does not re-raise the fault; the except clause swallows it and the final
return statement raises UnboundLocalError, with no retry and no sleep. -/
theorem throttle_other_fault_unboundlocal :
    throttleRequest 2 true fnC3 0 = (PyOutcome.unboundLocal, []) ∧
      (throttleRequest 2 true fnC3 0).1 ≠ PyOutcome.fault faultOther := by
  have he : throttleRequest 2 true fnC3 0 = (PyOutcome.unboundLocal, []) :=
    throttleRequest_other 2 true fnC3 0 faultOther rfl (by decide)
  refine ⟨he, ?_⟩
  rw [he]
  simp

theorem replaceChar_nil_rep (l : List Char) (p : Char) :
    replaceChar l p [] = l.filter (fun c => !(c == p)) := by
  induction l with
  | nil => rfl
  | cons c cs ih =>
    by_cases h : c = p
    · simp [replaceChar, h, ih]
    · simp [replaceChar, h, ih, List.filter_cons]

theorem replaceChar_single_rep (l : List Char) (p r : Char) :
    replaceChar l p [r] = l.map (fun c => if c = p then r else c) := by
  induction l with
  | nil => rfl
  | cons c cs ih =>
    by_cases h : c = p
    · simp [replaceChar, h, ih]
    · simp [replaceChar, h, ih]

theorem normalizeName_data (s : String) :
    (normalizeName s).data =
      (s.data.filter (fun c => !(c == '@'))).map dashChar := by
  show replaceChar (replaceChar (replaceChar s.data '@' []) '/' ['-']) '_' ['-'] = _
  rw [replaceChar_nil_rep, replaceChar_single_rep, replaceChar_single_rep,
    List.map_map]
  have hfun : ((fun c => if c = '_' then '-' else c) ∘
      fun c => if c = '/' then '-' else c) = dashChar := by
    funext c
    by_cases h1 : c = '/'
    · subst h1; rfl
    · by_cases h2 : c = '_'
      · subst h2; rfl
      · simp [Function.comp, dashChar, h1, h2]
  rw [hfun]

theorem dashChar_not_slash (c : Char) : dashChar c ≠ '/' := by
  by_cases h1 : c = '/'
  · simp [dashChar, h1]
  · by_cases h2 : c = '_' <;> simp [dashChar, h1, h2]

theorem dashChar_not_underscore (c : Char) : dashChar c ≠ '_' := by
  by_cases h1 : c = '/'
  · simp [dashChar, h1]
  · by_cases h2 : c = '_' <;> simp [dashChar, h1, h2]

theorem dashChar_not_at (c : Char) (h : c ≠ '@') : dashChar c ≠ '@' := by
  by_cases h1 : c = '/'
  · simp [dashChar, h1]
  · by_cases h2 : c = '_' <;> simp [dashChar, h1, h2, h]

theorem dashChar_fixed (c : Char) (h1 : c ≠ '/') (h2 : c ≠ '_') :
    dashChar c = c := by
  simp [dashChar, h1, h2]

theorem normalizeName_idem_data (s : String) :
    (normalizeName (normalizeName s)).data = (normalizeName s).data := by
  rw [normalizeName_data (normalizeName s), normalizeName_data s]
  have hfil : ((s.data.filter (fun c => !(c == '@'))).map dashChar).filter
      (fun c => !(c == '@')) =
      (s.data.filter (fun c => !(c == '@'))).map dashChar := by
    apply List.filter_eq_self.mpr
    intro a ha
    rcases List.mem_map.mp ha with ⟨b, hb, rfl⟩
    have hbne : b ≠ '@' := by
      have := List.of_mem_filter hb
      simpa using this
    simpa using dashChar_not_at b hbne
  rw [hfil]
  have hmap : ((s.data.filter (fun c => !(c == '@'))).map dashChar).map dashChar =
      (s.data.filter (fun c => !(c == '@'))).map dashChar := by
    rw [List.map_map]
    apply List.map_congr_left
    intro a _
    exact dashChar_fixed (dashChar a) (dashChar_not_slash a) (dashChar_not_underscore a)
  exact hmap

/-- Claim C8: normalization removes every at sign, replaces every slash
and underscore by a dash, is idempotent, and maps the scoped example to
scope-pkg-name. -/
theorem normalize_remove_replace_idem :
    (∀ s : String, (normalizeName s).data =
        (s.data.filter (fun c => !(c == '@'))).map
          (fun c => if c = '/' then '-' else if c = '_' then '-' else c)) ∧
    (∀ s : String, normalizeName (normalizeName s) = normalizeName s) ∧
    normalizeName "@scope/pkg_name" = "scope-pkg-name" := by
  refine ⟨fun s => normalizeName_data s, fun s => ?_, by decide⟩
  cases hn : normalizeName (normalizeName s) with
  | mk d1 =>
    cases hm : normalizeName s with
    | mk d2 =>
      have : d1 = d2 := by
        have h := normalizeName_idem_data s
        rw [hn, hm] at h
        exact h
      rw [this]

theorem pyOr_pos (a b : Option String) (h : truthy a = true) : pyOr a b = a := by
  cases a with
  | none => simp [truthy] at h
  | some s =>
    have hs : ¬ s = "" := by simpa [truthy] using h
    simp [pyOr, hs]

theorem pyOr_neg (a b : Option String) (h : truthy a = false) : pyOr a b = b := by
  cases a with
  | none => rfl
  | some s =>
    have hs : s = "" := by simpa [truthy] using h
    simp [pyOr, hs]

theorem ors_all_falsy (l : List (Option String))
    (h : ∀ c ∈ l, truthy c = false) : truthy (ors l) = false := by
  induction l with
  | nil => rfl
  | cons a t ih =>
    cases t with
    | nil => exact h a (by simp)
    | cons b t2 =>
      have ha : truthy a = false := h a (by simp)
      have he : ors (a :: b :: t2) = pyOr a (ors (b :: t2)) := rfl
      rw [he, pyOr_neg _ _ ha]
      exact ih (fun c hc => h c (by simp [hc]))

theorem ors_first_truthy (l : List (Option String))
    (h : ∃ c ∈ l, truthy c = true) : ors l = firstTruthy l := by
  induction l with
  | nil =>
    rcases h with ⟨c, hc, _⟩
    cases hc
  | cons a t ih =>
    by_cases ha : truthy a = true
    · cases t with
      | nil => simp [ors, firstTruthy, ha]
      | cons b t2 =>
        have he : ors (a :: b :: t2) = pyOr a (ors (b :: t2)) := rfl
        rw [he, pyOr_pos _ _ ha]
        simp [firstTruthy, ha]
    · have ha2 : truthy a = false := by
        cases hv : truthy a
        · rfl
        · exact absurd hv ha
      have hex : ∃ c ∈ t, truthy c = true := by
        rcases h with ⟨c, hc, hct⟩
        rcases List.mem_cons.mp hc with rfl | hc2
        · exact absurd hct ha
        · exact ⟨c, hc2, hct⟩
      cases t with
      | nil =>
        rcases hex with ⟨c, hc, _⟩
        cases hc
      | cons b t2 =>
        have he : ors (a :: b :: t2) = pyOr a (ors (b :: t2)) := rfl
        rw [he, pyOr_neg _ _ ha2]
        have hf : firstTruthy (a :: b :: t2) =
            if truthy a then a else firstTruthy (b :: t2) := rfl
        rw [hf]
        simp [ha2]
        exact ih hex

/-- The fallback chain of the source is the or chain over the six
candidates. -/
theorem bestGuess_eq_ors (m : Metadata) :
    bestGuessHomeUrl m = ors (c4Candidates m) := rfl

/-- Claim C1 (counterexample): in the URL precedence scenario with
home_page HP, project_urls Homepage H and Source Code S, the record field
homepage_url is HP, not H, while repository_url is S: the metadata
home_page wins over the project_urls Homepage entry. -/
theorem homepage_precedence_cex :
    (buildRecord id "pkg" "1.0" mC1 statsErr).homepage_url = some "HP" ∧
      (buildRecord id "pkg" "1.0" mC1 statsErr).homepage_url ≠ some "H" ∧
      (buildRecord id "pkg" "1.0" mC1 statsErr).repository_url = some "S" := by
  refine ⟨rfl, by decide, rfl⟩

/-- Claim C1 (amended): the homepage url is the metadata home_page when
that value is non-empty, falling back to the project_urls Homepage entry
otherwise; in the precedence scenario the record homepage_url field is HP
and repository_url is S. -/
theorem homepage_precedence (m m2 : Metadata) (hp : String)
    (h1 : m.home_page = some hp) (h2 : hp ≠ "")
    (h3 : m2.home_page = none ∨ m2.home_page = some "") :
    homepageUrl m = some hp ∧
      homepageUrl m2 = dictLookup "Homepage" (pkgUrls m2) ∧
      (buildRecord id "pkg" "1.0" mC1 statsErr).homepage_url = some "HP" ∧
      (buildRecord id "pkg" "1.0" mC1 statsErr).repository_url = some "S" := by
  refine ⟨?_, ?_, rfl, rfl⟩
  · rw [homepageUrl, h1]
    simp [pyOr, h2]
  · rcases h3 with h3 | h3 <;> rw [homepageUrl, h3] <;> simp [pyOr]

/-- Witness for claim C1 at the scenario metadata and the empty metadata. -/
theorem homepage_precedence_witness :
    homepageUrl mC1 = some "HP" ∧
      homepageUrl emptyMeta = dictLookup "Homepage" (pkgUrls emptyMeta) ∧
      (buildRecord id "pkg" "1.0" mC1 statsErr).homepage_url = some "HP" ∧
      (buildRecord id "pkg" "1.0" mC1 statsErr).repository_url = some "S" :=
  homepage_precedence mC1 emptyMeta "HP" rfl (by decide) (Or.inl rfl)

/-- Claim C4 (counterexample): with every one of the five claimed
candidates empty but a bug tracker url B present, the record field
homepage_url is B rather than empty: the chain has a sixth fallback. -/
theorem bestguess_sixth_fallback_cex :
    homepageUrl mC4 = none ∧ mC4.project_url = none ∧
      mC4.package_url = none ∧ documentationUrl mC4 = none ∧
      sourceUrl mC4 = none ∧
      (buildRecord id "pkg" "1.0" mC4 statsErr).homepage_url = some "B" ∧
      (buildRecord id "pkg" "1.0" mC4 statsErr).homepage_url ≠ none := by
  refine ⟨rfl, rfl, rfl, rfl, rfl, rfl, by decide⟩

/-- Claim C4 (amended): the record homepage_url field is the first
non-empty value among the six candidates homepage url, project_url,
package_url, documentation url, repository url and bug tracker url, in
that order; when all six are empty the field is empty. -/
theorem bestguess_first_truthy_of_six (m : Metadata) :
    ((∃ c ∈ c4Candidates m, truthy c = true) →
        bestGuessHomeUrl m = firstTruthy (c4Candidates m)) ∧
      ((∀ c ∈ c4Candidates m, truthy c = false) →
        truthy (bestGuessHomeUrl m) = false) := by
  constructor
  · intro h
    rw [bestGuess_eq_ors]
    exact ors_first_truthy _ h
  · intro h
    rw [bestGuess_eq_ors]
    exact ors_all_falsy _ h

/-- Witness for claim C4 at the bug-tracker-only metadata. -/
theorem bestguess_first_truthy_of_six_witness :
    bestGuessHomeUrl mC4 = firstTruthy (c4Candidates mC4) :=
  (bestguess_first_truthy_of_six mC4).1 (by decide)

theorem dictLookup_insert {α : Type} (k k2 : String) (v : α)
    (d : List (String × α)) :
    dictLookup k2 (dictInsert k v d) =
      if k = k2 then some v else dictLookup k2 d := by
  induction d with
  | nil => rfl
  | cons p rest ih =>
    by_cases h1 : p.1 = k
    · by_cases h2 : k = k2
      · simp [dictInsert, dictLookup, h1, h2]
      · have hp : ¬ p.1 = k2 := by rw [h1]; exact h2
        simp [dictInsert, dictLookup, h1, h2, hp]
    · by_cases hp : p.1 = k2
      · have h2 : ¬ k = k2 := by
          intro hh
          exact h1 (by rw [hh, hp])
        have h3 : ¬ k2 = k := fun hh => h2 hh.symm
        simp [dictInsert, dictLookup, h1, h2, h3, hp]
      · simp [dictInsert, dictLookup, h1, hp, ih]

theorem mem_keys_insert {α : Type} (x k : String) (v : α)
    (d : List (String × α)) :
    x ∈ (dictInsert k v d).map Prod.fst ↔ x = k ∨ x ∈ d.map Prod.fst := by
  induction d with
  | nil => simp [dictInsert]
  | cons p rest ih =>
    by_cases h1 : p.1 = k
    · simp [dictInsert, h1]
    · simp [dictInsert, h1, ih]
      tauto

theorem nodup_keys_insert {α : Type} (k : String) (v : α)
    (d : List (String × α)) (h : (d.map Prod.fst).Nodup) :
    ((dictInsert k v d).map Prod.fst).Nodup := by
  induction d with
  | nil => simp [dictInsert]
  | cons p rest ih =>
    have h2 : p.1 ∉ rest.map Prod.fst ∧ (rest.map Prod.fst).Nodup := by
      rw [List.map_cons, List.nodup_cons] at h
      exact h
    by_cases h1 : p.1 = k
    · rw [dictInsert, if_pos h1, List.map_cons, List.nodup_cons]
      refine ⟨?_, h2.2⟩
      rw [← h1]
      exact h2.1
    · rw [dictInsert, if_neg h1, List.map_cons, List.nodup_cons]
      refine ⟨?_, ih h2.2⟩
      intro hmem
      rcases (mem_keys_insert _ _ _ _).mp hmem with he | hm
      · exact h1 he
      · exact h2.1 hm

theorem dictLookup_eq_none {α : Type} (k : String) (d : List (String × α)) :
    dictLookup k d = none ↔ k ∉ d.map Prod.fst := by
  induction d with
  | nil => simp [dictLookup]
  | cons p rest ih =>
    by_cases h1 : p.1 = k
    · simp [dictLookup, h1]
    · have h1s : ¬ k = p.1 := fun hh => h1 hh.symm
      simp [dictLookup, h1, h1s, ih]

theorem mem_iff_lookup {α : Type} (d : List (String × α))
    (hd : (d.map Prod.fst).Nodup) (k : String) (r : α) :
    (k, r) ∈ d ↔ dictLookup k d = some r := by
  induction d with
  | nil => simp [dictLookup]
  | cons p rest ih =>
    have h2 : p.1 ∉ rest.map Prod.fst ∧ (rest.map Prod.fst).Nodup := by
      rw [List.map_cons, List.nodup_cons] at hd
      exact hd
    constructor
    · intro hm
      rcases List.mem_cons.mp hm with he | hm2
      · rw [← he]
        simp [dictLookup]
      · have hne : p.1 ≠ k := by
          intro he
          apply h2.1
          rw [he]
          exact List.mem_map.mpr ⟨(k, r), hm2, rfl⟩
        rw [dictLookup, if_neg hne]
        exact (ih h2.2).mp hm2
    · intro hl
      rw [dictLookup] at hl
      by_cases hne : p.1 = k
      · rw [if_pos hne] at hl
        have hpr : p = (k, r) := by
          cases p with
          | mk a b =>
            simp at hne hl
            simp [hne, hl]
        rw [← hpr]
        exact List.mem_cons_self _ _
      · rw [if_neg hne] at hl
        exact List.mem_cons.mpr (Or.inr ((ih h2.2).mpr hl))

theorem mem_values_insert {α : Type} (x : α) (k : String) (v : α)
    (d : List (String × α)) (h : x ∈ (dictInsert k v d).map Prod.snd) :
    x = v ∨ x ∈ d.map Prod.snd := by
  induction d with
  | nil => simpa [dictInsert] using h
  | cons p rest ih =>
    by_cases h1 : p.1 = k
    · rw [dictInsert, if_pos h1, List.map_cons] at h
      rcases List.mem_cons.mp h with he | hm
      · exact Or.inl he
      · exact Or.inr (by rw [List.map_cons]; exact List.mem_cons.mpr (Or.inr hm))
    · rw [dictInsert, if_neg h1, List.map_cons] at h
      rcases List.mem_cons.mp h with he | hm
      · exact Or.inr (by rw [List.map_cons, he]; exact List.mem_cons_self _ _)
      · rcases ih hm with h2 | h2
        · exact Or.inl h2
        · exact Or.inr (by rw [List.map_cons]; exact List.mem_cons.mpr (Or.inr h2))

theorem findLast_cons_eq {α : Type} (p : α → Bool) (x : α) (t : List α) :
    findLast p (x :: t) =
      match findLast p t with
      | some y => some y
      | none => if p x then some x else none := rfl

theorem findLast_eq_none {α : Type} (p : α → Bool) (l : List α) :
    findLast p l = none ↔ ∀ x ∈ l, p x = false := by
  induction l with
  | nil => simp [findLast]
  | cons a t ih =>
    rw [findLast_cons_eq]
    cases hft : findLast p t with
    | some y =>
      simp only []
      constructor
      · intro h
        cases h
      · intro h
        have hn : findLast p t = none := ih.mpr (fun x hx => h x (by simp [hx]))
        rw [hft] at hn
        cases hn
    | none =>
      have ht : ∀ x ∈ t, p x = false := ih.mp hft
      by_cases hpa : p a = true
      · simp [hpa]
      · have hpa2 : p a = false := by
          cases hv : p a
          · rfl
          · exact absurd hv hpa
        simp [hpa2]
        exact ht

theorem findLast_mem {α : Type} (p : α → Bool) (l : List α) (a : α)
    (h : findLast p l = some a) : a ∈ l := by
  induction l with
  | nil => cases h
  | cons x t ih =>
    rw [findLast_cons_eq] at h
    cases hft : findLast p t with
    | some y =>
      rw [hft] at h
      simp only [] at h
      cases h
      exact List.mem_cons.mpr (Or.inr (ih hft))
    | none =>
      rw [hft] at h
      simp only [] at h
      by_cases hpa : p x = true
      · rw [if_pos hpa] at h
        cases h
        exact List.mem_cons_self _ _
      · rw [if_neg hpa] at h
        cases h

theorem findLast_sat {α : Type} (p : α → Bool) (l : List α) (a : α)
    (h : findLast p l = some a) : p a = true := by
  induction l with
  | nil => cases h
  | cons x t ih =>
    rw [findLast_cons_eq] at h
    cases hft : findLast p t with
    | some y =>
      rw [hft] at h
      simp only [] at h
      cases h
      exact ih hft
    | none =>
      rw [hft] at h
      simp only [] at h
      by_cases hpa : p x = true
      · rw [if_pos hpa] at h
        cases h
        exact hpa
      · rw [if_neg hpa] at h
        cases h

theorem findLast_mono {α : Type} (P Q : α → Bool) (hpq : ∀ x, Q x = true → P x = true)
    (l : List α) (a : α) (hP : findLast P l = some a) (hQ : Q a = true) :
    findLast Q l = some a := by
  induction l with
  | nil => cases hP
  | cons x t ih =>
    rw [findLast_cons_eq] at hP
    rw [findLast_cons_eq]
    cases hft : findLast P t with
    | some y =>
      rw [hft] at hP
      simp only [] at hP
      cases hP
      rw [ih hft]
    | none =>
      rw [hft] at hP
      simp only [] at hP
      by_cases hpa : P x = true
      · rw [if_pos hpa] at hP
        cases hP
        have hqt : findLast Q t = none := by
          rw [findLast_eq_none]
          intro z hz
          cases hv : Q z
          · rfl
          · exfalso
            have hpz := hpq z hv
            have := (findLast_eq_none P t).mp hft z hz
            rw [hpz] at this
            cases this
        rw [hqt]
        simp only []
        rw [if_pos hQ]
      · rw [if_neg hpa] at hP
        cases hP

theorem lastOfRunsAux_sub (cur : String × String) (l : List (String × String))
    (x : String × String) (h : x ∈ lastOfRunsAux cur l) : x = cur ∨ x ∈ l := by
  induction l generalizing cur with
  | nil =>
    rw [lastOfRunsAux] at h
    rcases List.mem_cons.mp h with he | he
    · exact Or.inl he
    · cases he
  | cons q rest ih =>
    rw [lastOfRunsAux] at h
    by_cases hq : q.1 = cur.1
    · rw [if_pos hq] at h
      rcases ih q h with he | he
      · exact Or.inr (List.mem_cons.mpr (Or.inl he))
      · exact Or.inr (List.mem_cons.mpr (Or.inr he))
    · rw [if_neg hq] at h
      rcases List.mem_cons.mp h with he | he
      · exact Or.inl he
      · rcases ih q he with h2 | h2
        · exact Or.inr (List.mem_cons.mpr (Or.inl h2))
        · exact Or.inr (List.mem_cons.mpr (Or.inr h2))

theorem mem_lastOfRuns (ms : List (String × String)) (x : String × String)
    (h : x ∈ lastOfRuns ms) : x ∈ ms := by
  cases ms with
  | nil => cases h
  | cons p rest =>
    rcases lastOfRunsAux_sub p rest x h with he | he
    · exact List.mem_cons.mpr (Or.inl he)
    · exact List.mem_cons.mpr (Or.inr he)

theorem findLast_lastOfRunsAux (f : String → Bool) (l : List (String × String)) :
    ∀ cur, findLast (fun p => f p.1) (lastOfRunsAux cur l) =
      findLast (fun p => f p.1) (cur :: l) := by
  induction l with
  | nil => intro cur; rfl
  | cons q rest ih =>
    intro cur
    by_cases hq : q.1 = cur.1
    · rw [lastOfRunsAux, if_pos hq, ih q]
      rw [findLast_cons_eq (fun p => f p.1) cur (q :: rest)]
      cases hf : findLast (fun p => f p.1) (q :: rest) with
      | some y => rfl
      | none =>
        simp only []
        have hfq : f q.1 = false := by
          have := (findLast_eq_none _ _).mp hf q (List.mem_cons_self _ _)
          exact this
        have hfc : f cur.1 = false := by rw [← hq]; exact hfq
        rw [hfc]
        rfl
    · rw [lastOfRunsAux, if_neg hq, findLast_cons_eq, ih q, ← findLast_cons_eq]

theorem findLast_lastOfRuns (f : String → Bool) (ms : List (String × String)) :
    findLast (fun p => f p.1) (lastOfRuns ms) = findLast (fun p => f p.1) ms := by
  cases ms with
  | nil => rfl
  | cons p rest => exact findLast_lastOfRunsAux f rest p

theorem buildDict_ok {ε : Type} (semver : String → String)
    (metaF : String → String → Metadata) (stats : String → Except Unit SVal)
    (gs : List (String × String)) :
    ∀ d, buildDict semver (fun n v => (Except.ok (metaF n v) : Except ε Metadata)) stats gs d =
      Except.ok (buildDictT semver metaF stats gs d) := by
  induction gs with
  | nil => intro d; rfl
  | cons g rest ih =>
    intro d
    cases g with
    | mk n v => exact ih _

theorem buildDictT_lookup (semver : String → String)
    (metaF : String → String → Metadata) (stats : String → Except Unit SVal)
    (gs : List (String × String)) :
    ∀ (d : List (String × Record)) (N : String),
      dictLookup N (buildDictT semver metaF stats gs d) =
        match findLast (fun g => normalizeName g.1 == N) gs with
        | some (n, v) => some (buildRecord semver n v (metaF n v) (stats n))
        | none => dictLookup N d := by
  induction gs with
  | nil => intro d N; rfl
  | cons g rest ih =>
    intro d N
    cases g with
    | mk n v =>
      rw [buildDictT, ih, findLast_cons_eq]
      cases hf : findLast (fun g => normalizeName g.1 == N) rest with
      | some p =>
        cases p with
        | mk n2 v2 => rfl
      | none =>
        simp only []
        by_cases hn : normalizeName n = N
        · have hb : (normalizeName n == N) = true := beq_iff_eq.mpr hn
          rw [hb, dictLookup_insert, if_pos hn]
          rfl
        · have hb : (normalizeName n == N) = false := by
            cases hv : normalizeName n == N
            · rfl
            · exact absurd (beq_iff_eq.mp hv) hn
          rw [hb, dictLookup_insert, if_neg hn]
          rfl

theorem buildDictT_keys_nodup (semver : String → String)
    (metaF : String → String → Metadata) (stats : String → Except Unit SVal)
    (gs : List (String × String)) :
    ∀ d, (d.map Prod.fst).Nodup →
      ((buildDictT semver metaF stats gs d).map Prod.fst).Nodup := by
  induction gs with
  | nil => intro d h; exact h
  | cons g rest ih =>
    intro d h
    cases g with
    | mk n v => exact ih _ (nodup_keys_insert _ _ _ h)

theorem buildDictT_values (semver : String → String)
    (metaF : String → String → Metadata) (stats : String → Except Unit SVal)
    (gs : List (String × String)) :
    ∀ d x, x ∈ (buildDictT semver metaF stats gs d).map Prod.snd →
      x ∈ d.map Prod.snd ∨
        ∃ n v, (n, v) ∈ gs ∧ x = buildRecord semver n v (metaF n v) (stats n) := by
  induction gs with
  | nil => intro d x h; exact Or.inl h
  | cons g rest ih =>
    intro d x h
    cases g with
    | mk n v =>
      rcases ih _ x h with h2 | h2
      · rcases mem_values_insert x _ _ _ h2 with h3 | h3
        · exact Or.inr ⟨n, v, List.mem_cons_self _ _, h3⟩
        · exact Or.inl h3
      · rcases h2 with ⟨n2, v2, hm, he⟩
        exact Or.inr ⟨n2, v2, List.mem_cons.mpr (Or.inr hm), he⟩

theorem buildDictT_keys_mem (semver : String → String)
    (metaF : String → String → Metadata) (stats : String → Except Unit SVal)
    (gs : List (String × String)) (N : String) :
    N ∈ (buildDictT semver metaF stats gs []).map Prod.fst ↔
      ∃ g ∈ gs, normalizeName g.1 = N := by
  constructor
  · intro h
    by_cases hl : dictLookup N (buildDictT semver metaF stats gs []) = none
    · exact absurd h ((dictLookup_eq_none _ _).mp hl)
    · rw [buildDictT_lookup] at hl
      cases hf : findLast (fun g => normalizeName g.1 == N) gs with
      | some p =>
        refine ⟨p, findLast_mem _ _ _ hf, ?_⟩
        exact beq_iff_eq.mp
          (findLast_sat (fun g => normalizeName g.1 == N) gs p hf)
      | none =>
        rw [hf] at hl
        simp only [dictLookup] at hl
        exact absurd trivial hl
  · intro h
    rcases h with ⟨g, hg, hn⟩
    by_contra hmem
    have hl : dictLookup N (buildDictT semver metaF stats gs []) = none :=
      (dictLookup_eq_none _ _).mpr hmem
    rw [buildDictT_lookup] at hl
    cases hf : findLast (fun g => normalizeName g.1 == N) gs with
    | some p =>
      rw [hf] at hl
      cases p with
      | mk a b => cases hl
    | none =>
      have hfl := (findLast_eq_none _ _).mp hf g hg
      have hb : (normalizeName g.1 == N) = true := beq_iff_eq.mpr hn
      rw [hb] at hfl
      cases hfl

theorem mem_pyInsert {α : Type} (key : α → Int) (x a : α) (l : List α) :
    a ∈ pyInsert key x l ↔ a = x ∨ a ∈ l := by
  induction l with
  | nil => simp [pyInsert]
  | cons y ys ih =>
    by_cases h : key x ≤ key y
    · simp [pyInsert, h]
    · simp [pyInsert, h, ih]
      tauto

theorem pairwise_pyInsert {α : Type} (key : α → Int) (x : α) (l : List α)
    (h : l.Pairwise (fun a b => key a ≤ key b)) :
    (pyInsert key x l).Pairwise (fun a b => key a ≤ key b) := by
  induction l with
  | nil => simp [pyInsert]
  | cons y ys ih =>
    rcases List.pairwise_cons.mp h with ⟨hy, hys⟩
    by_cases hxy : key x ≤ key y
    · rw [pyInsert, if_pos hxy]
      refine List.pairwise_cons.mpr ⟨?_, h⟩
      intro b hb
      rcases List.mem_cons.mp hb with rfl | hb2
      · exact hxy
      · exact le_trans hxy (hy b hb2)
    · rw [pyInsert, if_neg hxy]
      refine List.pairwise_cons.mpr ⟨?_, ih hys⟩
      intro b hb
      rcases (mem_pyInsert key x b ys).mp hb with rfl | hb2
      · exact le_of_lt (lt_of_not_le hxy)
      · exact hy b hb2

theorem pairwise_pySorted {α : Type} (key : α → Int) (l : List α) :
    (pySorted key l).Pairwise (fun a b => key a ≤ key b) := by
  induction l with
  | nil => simp [pySorted]
  | cons x xs ih => exact pairwise_pyInsert key x _ ih

theorem filter_pyInsert {α : Type} (key : α → Int) (x : α) (l : List α) (k : Int) :
    (pyInsert key x l).filter (fun a => key a == k) =
      (x :: l).filter (fun a => key a == k) := by
  induction l with
  | nil => rfl
  | cons y ys ih =>
    by_cases hxy : key x ≤ key y
    · rw [pyInsert, if_pos hxy]
    · rw [pyInsert, if_neg hxy]
      by_cases hx : key x = k
      · have hy : ¬ key y = k := by
          intro hyk
          exact hxy (by rw [hx, hyk])
        simp only [List.filter_cons, ih]
        rw [show (key x == k) = true from beq_iff_eq.mpr hx,
          show (key y == k) = false from beq_eq_false_iff_ne.mpr hy]
        simp
      · simp only [List.filter_cons, ih]
        rw [show (key x == k) = false from beq_eq_false_iff_ne.mpr hx]
        simp

theorem filter_pySorted {α : Type} (key : α → Int) (l : List α) (k : Int) :
    (pySorted key l).filter (fun a => key a == k) =
      l.filter (fun a => key a == k) := by
  induction l with
  | nil => rfl
  | cons x xs ih =>
    rw [pySorted, filter_pyInsert, List.filter_cons, List.filter_cons, ih]

theorem mem_pySorted {α : Type} (key : α → Int) (l : List α) (a : α) :
    a ∈ pySorted key l ↔ a ∈ l := by
  induction l with
  | nil => simp [pySorted]
  | cons x xs ih =>
    rw [pySorted, mem_pyInsert]
    simp [ih]

/-- Claim C10: when the project_urls map is missing, the record is still
built: the map defaults to empty, every project_urls lookup yields no
value, and list_packages succeeds on such a package. -/
theorem null_project_urls_safe (m : Metadata) (h : m.project_urls = none)
    (semver : String → String) (stats : String → Except Unit SVal)
    (n v : String) :
    pkgUrls m = [] ∧
      sourceUrl m = none ∧
      dictLookup "Homepage" (pkgUrls m) = none ∧
      dictLookup "Documentation" (pkgUrls m) = none ∧
      dictLookup "Bug Tracker" (pkgUrls m) = none ∧
      listPackages semver (fun _ _ => (Except.ok m : Except Unit Metadata))
          stats [(n, v)] =
        Except.ok [buildRecord semver n v m (stats n)] := by
  have hp : pkgUrls m = [] := by simp [pkgUrls, h]
  refine ⟨hp, ?_, ?_, ?_, ?_, rfl⟩
  · rw [sourceUrl, hp]
    rfl
  · rw [hp]
    rfl
  · rw [hp]
    rfl
  · rw [hp]
    rfl

/-- Witness for claim C10 at the bug-tracker-only metadata. -/
theorem null_project_urls_safe_witness :
    pkgUrls mC4 = [] ∧
      sourceUrl mC4 = none ∧
      dictLookup "Homepage" (pkgUrls mC4) = none ∧
      dictLookup "Documentation" (pkgUrls mC4) = none ∧
      dictLookup "Bug Tracker" (pkgUrls mC4) = none ∧
      listPackages id (fun _ _ => (Except.ok mC4 : Except Unit Metadata))
          (fun _ => statsErr) [("p", "1")] =
        Except.ok [buildRecord id "p" "1" mC4 statsErr] :=
  null_project_urls_safe mC4 rfl id (fun _ => statsErr) "p" "1"

/-- The loop of buildDict propagates the first metadata failure. -/
theorem buildDict_error {ε : Type} (semver : String → String)
    (meta : String → String → Except ε Metadata)
    (stats : String → Except Unit SVal) (gs : List (String × String)) :
    ∀ d, (∃ p ∈ gs, ∃ e, meta p.1 p.2 = Except.error e) →
      ∃ p ∈ gs, ∃ e, meta p.1 p.2 = Except.error e ∧
        buildDict semver meta stats gs d = Except.error e := by
  induction gs with
  | nil =>
    intro d h
    rcases h with ⟨p, hp, _⟩
    cases hp
  | cons g rest ih =>
    intro d h
    cases g with
    | mk n v =>
      cases hm : meta n v with
      | error e =>
        refine ⟨(n, v), List.mem_cons_self _ _, e, hm, ?_⟩
        rw [buildDict, hm]
      | ok m2 =>
        have h2 : ∃ p ∈ rest, ∃ e, meta p.1 p.2 = Except.error e := by
          rcases h with ⟨p, hp, e, he⟩
          rcases List.mem_cons.mp hp with rfl | hp2
          · rw [hm] at he
            cases he
          · exact ⟨p, hp2, e, he⟩
        rcases ih _ h2 with ⟨p, hp, e, he, hbd⟩
        refine ⟨p, List.mem_cons.mpr (Or.inr hp), e, he, ?_⟩
        rw [buildDict, hm]
        exact hbd

/-- Claim C6: a metadata fetch failure for any group aborts the whole
listing: that error propagates out of list_packages and no catalog, not
even a partial one, is produced. -/
theorem metadata_failure_aborts {ε : Type} (semver : String → String)
    (meta : String → String → Except ε Metadata)
    (stats : String → Except Unit SVal) (ms : List (String × String))
    (h : ∃ p ∈ lastOfRuns ms, ∃ e, meta p.1 p.2 = Except.error e) :
    ∃ p ∈ lastOfRuns ms, ∃ e, meta p.1 p.2 = Except.error e ∧
      listPackages semver meta stats ms = Except.error e := by
  rcases buildDict_error semver meta stats (lastOfRuns ms) [] h with
    ⟨p, hp, e, he, hbd⟩
  refine ⟨p, hp, e, he, ?_⟩
  rw [listPackages, hbd]

/-- Witness for claim C6 at a concrete always-failing metadata oracle. -/
theorem metadata_failure_aborts_witness :
    ∃ p ∈ lastOfRuns [("a", "1")], ∃ e : String,
      (fun _ _ => (Except.error "nope" : Except String Metadata)) p.1 p.2 =
          Except.error e ∧
        listPackages id
            (fun _ _ => (Except.error "nope" : Except String Metadata))
            (fun _ => statsErr) [("a", "1")] =
          Except.error e :=
  metadata_failure_aborts id
    (fun _ _ => (Except.error "nope" : Except String Metadata))
    (fun _ => statsErr) [("a", "1")]
    ⟨("a", "1"), List.mem_singleton.mpr rfl, "nope", rfl⟩

/-- Claim C5: with an infallible metadata oracle, list_packages always
returns a catalog (no statistics exception escapes); each record comes
from some candidate, carrying the monthly count computed for its raw
name; a failed statistics fetch yields exactly 0, as does a payload with
a missing data key or a missing last_month key. -/
theorem stats_failure_defaults_zero (semver : String → String)
    (metaF : String → String → Metadata) (stats : String → Except Unit SVal)
    (ms : List (String × String)) :
    (∃ cat,
      listPackages semver (fun n v => (Except.ok (metaF n v) : Except Unit Metadata))
          stats ms = Except.ok cat ∧
        ∀ r ∈ cat, ∃ n v, (n, v) ∈ ms ∧
          r = buildRecord semver n v (metaF n v) (stats n) ∧
          (stats n = Except.error () → r.monthly_download = 0)) ∧
      (∀ e : Unit, getMonthlyDownload (Except.error e) = 0) ∧
      (∀ l : List (String × SVal), dictLookup "data" l = none →
        getMonthlyDownload (Except.ok (SVal.sobj l)) = 0) ∧
      (∀ l l2, dictLookup "data" l = some (SVal.sobj l2) →
        dictLookup "last_month" l2 = none →
        getMonthlyDownload (Except.ok (SVal.sobj l)) = 0) := by
  refine ⟨?_, ?_, ?_, ?_⟩
  · refine ⟨pySorted (fun r => r.monthly_download)
      ((buildDictT semver metaF stats (lastOfRuns ms) []).map Prod.snd), ?_, ?_⟩
    · rw [listPackages, buildDict_ok]
    · intro r hr
      have hv : r ∈ (buildDictT semver metaF stats (lastOfRuns ms) []).map Prod.snd :=
        (mem_pySorted _ _ _).mp hr
      rcases buildDictT_values semver metaF stats (lastOfRuns ms) [] r hv with h0 | h0
      · cases h0
      · rcases h0 with ⟨n, v, hm, he⟩
        refine ⟨n, v, mem_lastOfRuns ms (n, v) hm, he, ?_⟩
        intro hs
        rw [he]
        show getMonthlyDownload (stats n) = 0
        rw [hs]
        rfl
  · intro e
    rfl
  · intro l hl
    simp [getMonthlyDownload, svalGet, hl, dictLookup]
  · intro l l2 hl hl2
    simp [getMonthlyDownload, svalGet, hl, hl2]

/-- Witness for claim C5 at the concrete fixtures. -/
theorem stats_failure_defaults_zero_witness :
    (∃ cat,
      listPackages id (fun n v => (Except.ok (metaW n v) : Except Unit Metadata))
          statsW msW = Except.ok cat ∧
        ∀ r ∈ cat, ∃ n v, (n, v) ∈ msW ∧
          r = buildRecord id n v (metaW n v) (statsW n) ∧
          (statsW n = Except.error () → r.monthly_download = 0)) ∧
      (∀ e : Unit, getMonthlyDownload (Except.error e) = 0) ∧
      (∀ l : List (String × SVal), dictLookup "data" l = none →
        getMonthlyDownload (Except.ok (SVal.sobj l)) = 0) ∧
      (∀ l l2, dictLookup "data" l = some (SVal.sobj l2) →
        dictLookup "last_month" l2 = none →
        getMonthlyDownload (Except.ok (SVal.sobj l)) = 0) :=
  stats_failure_defaults_zero id metaW statsW msW

/-- Claim C7: every produced catalog is sorted ascending by the monthly
download count, and the sort is stable: filtering the catalog at any
count value returns the pre-sort records with that count in their
original dict order. -/
theorem catalog_sorted_stable {ε : Type} (semver : String → String)
    (meta : String → String → Except ε Metadata)
    (stats : String → Except Unit SVal) (ms : List (String × String))
    (cat : List Record)
    (h : listPackages semver meta stats ms = Except.ok cat) :
    cat.Pairwise (fun a b => a.monthly_download ≤ b.monthly_download) ∧
      ∃ d, buildDict semver meta stats (lastOfRuns ms) [] = Except.ok d ∧
        cat = pySorted (fun r => r.monthly_download) (d.map Prod.snd) ∧
        ∀ k : Int, cat.filter (fun r => r.monthly_download == k) =
          (d.map Prod.snd).filter (fun r => r.monthly_download == k) := by
  rw [listPackages] at h
  cases hbd : buildDict semver meta stats (lastOfRuns ms) [] with
  | error e =>
    rw [hbd] at h
    cases h
  | ok d =>
    rw [hbd] at h
    have hcat : cat = pySorted (fun r => r.monthly_download) (d.map Prod.snd) := by
      injection h with h2
      exact h2.symm
    refine ⟨?_, d, rfl, hcat, ?_⟩
    · rw [hcat]
      exact pairwise_pySorted _ _
    · intro k
      rw [hcat]
      exact filter_pySorted _ _ _

/-- Witness for claim C7 at the concrete fixtures. -/
theorem catalog_sorted_stable_witness :
    catW.Pairwise (fun a b => a.monthly_download ≤ b.monthly_download) ∧
      ∃ d, buildDict id (fun n v => (Except.ok (metaW n v) : Except Unit Metadata))
          statsW (lastOfRuns msW) [] = Except.ok d ∧
        catW = pySorted (fun r => r.monthly_download) (d.map Prod.snd) ∧
        ∀ k : Int, catW.filter (fun r => r.monthly_download == k) =
          (d.map Prod.snd).filter (fun r => r.monthly_download == k) :=
  catalog_sorted_stable id _ statsW msW catW
    (by rw [listPackages, buildDict_ok]; rfl)

/-- Claim C9: for a non-empty listing result the catalog dict has
pairwise distinct keys whose set is exactly the normalized names of the
candidates, with matching count, and each record is built from the last
candidate in upstream order that bears its raw name, using the version
of that last candidate. -/
theorem unique_normalized_keys_last_version (semver : String → String)
    (metaF : String → String → Metadata) (stats : String → Except Unit SVal)
    (ms : List (String × String)) (_hne : ms ≠ []) :
    ∃ d, buildDict semver (fun n v => (Except.ok (metaF n v) : Except Unit Metadata))
        stats (lastOfRuns ms) [] = Except.ok d ∧
      listPackages semver (fun n v => (Except.ok (metaF n v) : Except Unit Metadata))
          stats ms =
        Except.ok (pySorted (fun r => r.monthly_download) (d.map Prod.snd)) ∧
      (d.map Prod.fst).Nodup ∧
      (∀ N, N ∈ d.map Prod.fst ↔ ∃ p ∈ ms, normalizeName p.1 = N) ∧
      (d.map Prod.fst).length =
        ((ms.map (fun p => normalizeName p.1)).dedup).length ∧
      (∀ N r, (N, r) ∈ d →
        r.name = N ∧
        ∃ n v, findLast (fun q => q.1 == n) ms = some (n, v) ∧
          normalizeName n = N ∧
          r = buildRecord semver n v (metaF n v) (stats n)) := by
  refine ⟨buildDictT semver metaF stats (lastOfRuns ms) [],
    buildDict_ok semver metaF stats (lastOfRuns ms) [], ?_, ?_, ?_, ?_, ?_⟩
  · rw [listPackages, buildDict_ok]
  · exact buildDictT_keys_nodup semver metaF stats (lastOfRuns ms) [] (by simp)
  · intro N
    rw [buildDictT_keys_mem]
    constructor
    · rintro ⟨g, hg, hgn⟩
      exact ⟨g, mem_lastOfRuns ms g hg, hgn⟩
    · rintro ⟨p, hp, hpn⟩
      have hnn : ¬ findLast (fun q => normalizeName q.1 == N) ms = none := by
        intro hn
        have := (findLast_eq_none _ _).mp hn p hp
        rw [beq_iff_eq.mpr hpn] at this
        cases this
      cases hf : findLast (fun q => normalizeName q.1 == N) ms with
      | none => exact absurd hf hnn
      | some a =>
        have hfr : findLast (fun q => normalizeName q.1 == N) (lastOfRuns ms) =
            some a := by
          rw [findLast_lastOfRuns (fun s => normalizeName s == N) ms]
          exact hf
        refine ⟨a, findLast_mem _ _ _ hfr, ?_⟩
        exact beq_iff_eq.mp (findLast_sat (fun q => normalizeName q.1 == N) ms a hf)
  · have hnd : ((buildDictT semver metaF stats (lastOfRuns ms) []).map Prod.fst).Nodup :=
      buildDictT_keys_nodup semver metaF stats (lastOfRuns ms) [] (by simp)
    have hdd : ((ms.map (fun p => normalizeName p.1)).dedup).Nodup :=
      List.nodup_dedup _
    have hmem : ∀ N,
        N ∈ (buildDictT semver metaF stats (lastOfRuns ms) []).map Prod.fst ↔
          N ∈ (ms.map (fun p => normalizeName p.1)).dedup := by
      intro N
      rw [buildDictT_keys_mem, List.mem_dedup, List.mem_map]
      constructor
      · rintro ⟨g, hg, hgn⟩
        exact ⟨g, mem_lastOfRuns ms g hg, hgn⟩
      · rintro ⟨p, hp, hpn⟩
        have hnn : ¬ findLast (fun q => normalizeName q.1 == N) ms = none := by
          intro hn
          have := (findLast_eq_none _ _).mp hn p hp
          rw [beq_iff_eq.mpr hpn] at this
          cases this
        cases hf : findLast (fun q => normalizeName q.1 == N) ms with
        | none => exact absurd hf hnn
        | some a =>
          have hfr : findLast (fun q => normalizeName q.1 == N) (lastOfRuns ms) =
              some a := by
            rw [findLast_lastOfRuns (fun s => normalizeName s == N) ms]
            exact hf
          refine ⟨a, findLast_mem _ _ _ hfr, ?_⟩
          exact beq_iff_eq.mp
            (findLast_sat (fun q => normalizeName q.1 == N) ms a hf)
    have hfin :
        ((buildDictT semver metaF stats (lastOfRuns ms) []).map Prod.fst).toFinset =
          ((ms.map (fun p => normalizeName p.1)).dedup).toFinset := by
      apply Finset.ext
      intro N
      rw [List.mem_toFinset, List.mem_toFinset]
      exact hmem N
    rw [← List.toFinset_card_of_nodup hnd, ← List.toFinset_card_of_nodup hdd, hfin]
  · intro N r hmem
    have hnd : ((buildDictT semver metaF stats (lastOfRuns ms) []).map Prod.fst).Nodup :=
      buildDictT_keys_nodup semver metaF stats (lastOfRuns ms) [] (by simp)
    have hl : dictLookup N (buildDictT semver metaF stats (lastOfRuns ms) []) =
        some r := (mem_iff_lookup _ hnd N r).mp hmem
    rw [buildDictT_lookup] at hl
    cases hf : findLast (fun g => normalizeName g.1 == N) (lastOfRuns ms) with
    | none =>
      rw [hf] at hl
      cases hl
    | some p =>
      rw [hf] at hl
      cases p with
      | mk n v =>
        simp only [] at hl
        have hr : r = buildRecord semver n v (metaF n v) (stats n) := by
          injection hl with h2
          exact h2.symm
        have hnN : normalizeName n = N :=
          beq_iff_eq.mp
            (findLast_sat (fun g => normalizeName g.1 == N) (lastOfRuns ms) (n, v) hf)
        have hq : findLast (fun q => q.1 == n) (lastOfRuns ms) = some (n, v) :=
          findLast_mono (fun (g : String × String) => normalizeName g.1 == N)
            (fun (q : String × String) => q.1 == n)
            (fun x hx => by
              have hx2 : x.1 = n := beq_iff_eq.mp hx
              rw [beq_iff_eq, hx2, hnN])
            (lastOfRuns ms) (n, v) hf (by rw [beq_iff_eq])
        have hqm : findLast (fun q => q.1 == n) ms = some (n, v) := by
          rw [← findLast_lastOfRuns (fun s => s == n) ms]
          exact hq
        refine ⟨by rw [hr]; exact hnN, n, v, hqm, hnN, hr⟩

/-- Witness for claim C9 at the concrete fixtures. -/
theorem unique_normalized_keys_last_version_witness :
    ∃ d, buildDict id (fun n v => (Except.ok (metaW n v) : Except Unit Metadata))
        statsW (lastOfRuns msW) [] = Except.ok d ∧
      listPackages id (fun n v => (Except.ok (metaW n v) : Except Unit Metadata))
          statsW msW =
        Except.ok (pySorted (fun r => r.monthly_download) (d.map Prod.snd)) ∧
      (d.map Prod.fst).Nodup ∧
      (∀ N, N ∈ d.map Prod.fst ↔ ∃ p ∈ msW, normalizeName p.1 = N) ∧
      (d.map Prod.fst).length =
        ((msW.map (fun p => normalizeName p.1)).dedup).length ∧
      (∀ N r, (N, r) ∈ d →
        r.name = N ∧
        ∃ n v, findLast (fun q => q.1 == n) msW = some (n, v) ∧
          normalizeName n = N ∧
          r = buildRecord id n v (metaW n v) (statsW n)) :=
  unique_normalized_keys_last_version id metaW statsW msW (by simp [msW])

end PyPIExt
